import Mathlib

/-!
Verification of the text-to-AST parsing and diagnostic-location engine of an
embeddable multi-model database (file src/lib/src/sql/parser.rs).

Modelling conventions:
* Rust strings (str slices) are modelled as List Char, one entry per Unicode
  scalar value.  Byte positions and byte lengths are recovered through the
  UTF-8 length of each scalar (utf8Len / byteLen), so all the byte arithmetic
  of the source is preserved.
* usize arithmetic wraps modulo 2^64 (release-mode semantics); usizeSub models
  the wrapping subtraction used for "input.len() - tried.len()" and
  "index - chars".
* Fallible string slicing (the slice inside truncate) is modelled by an
  Option-returning byteSlice whose none case stands for the out-of-bounds /
  non-boundary panic of Rust slicing.
* parse_impl returns Option (Except Error O); none stands for a panic, which
  in the source can only come from the unreachable!() arm (taken on a nom
  Incomplete result) or from a panicking slice inside locate.
-/

namespace SQL

/-- UTF-8 encoded length in bytes of one Unicode scalar value. -/
def utf8Len (c : Char) : Nat :=
  if c.toNat < 0x80 then 1
  else if c.toNat < 0x800 then 2
  else if c.toNat < 0x10000 then 3
  else 4

/-- Byte length of a string, as str::len does in the source. -/
def byteLen (s : List Char) : Nat := (s.map utf8Len).sum

/-- Whitespace predicate modelling char::is_whitespace on the characters the
source can meet (ASCII whitespace plus NEL and NBSP). -/
def isWs (c : Char) : Bool :=
  c.toNat = 32 || c.toNat = 9 || c.toNat = 10 || c.toNat = 11 ||
  c.toNat = 12 || c.toNat = 13 || c.toNat = 133 || c.toNat = 160

/-- Model of str::trim: drop whitespace from both ends. -/
def trim (s : List Char) : List Char :=
  ((s.dropWhile isWs).reverse.dropWhile isWs).reverse

/-- The usize modulus. -/
def USIZE : Nat := 2 ^ 64

/-- Wrapping usize subtraction (release-mode semantics of a - b). -/
def usizeSub (a b : Nat) : Nat := (a % USIZE + (USIZE - b % USIZE)) % USIZE

/-- Byte offsets of each character, as str::char_indices yields them,
starting from offset i. -/
def charIndicesFrom (i : Nat) : List Char → List (Nat × Char)
  | [] => []
  | c :: rest => (i, c) :: charIndicesFrom (i + utf8Len c) rest

/-- Model of str::char_indices. -/
def char_indices (s : List Char) : List (Nat × Char) := charIndicesFrom 0 s

/-- Model of slicing a str at byte index i (the expression s[..i] of the
source).  Returns none when i is not a character boundary or is out of
range, the cases in which Rust slicing panics. -/
def byteSlice (s : List Char) (i : Nat) : Option (List Char) :=
  if i = 0 then some []
  else
    match s with
    | [] => none
    | c :: rest =>
      if utf8Len c ≤ i then (byteSlice rest (i - utf8Len c)).map (c :: ·)
      else none

/-- Model of fn truncate of the source: cut s after its l-th character,
via char_indices().nth(l). -/
def truncate (s : List Char) (l : Nat) : Option (List Char) :=
  match (char_indices s)[l]? with
  | none => some s
  | some (i, _) => byteSlice s i

/-- Model of str::split on a newline character. -/
def splitNl : List Char → List (List Char)
  | [] => [[]]
  | c :: rest =>
    if c = '\n' then [] :: splitNl rest
    else
      match splitNl rest with
      | [] => [c] :: []
      | l :: ls => (c :: l) :: ls

/-- The scanning loop of fn locate: lines carries the byte length of each
line, line / total / chars are the loop variables of the source. -/
def locateScan (index : Nat) : List Nat → Nat → Nat → Nat → Option (Nat × Nat)
  | [], _, _, _ => none
  | size :: rest, line, total, chars =>
    if index < total + (size + 1) then some (line + 1, usizeSub index chars)
    else locateScan index rest (line + 1) (total + (size + 1)) (chars + (size + 1))

/-- Model of fn locate of the source.  Returns the truncated snippet, the
line number and the character offset; none stands for a panic inside
truncate. -/
def locate (input tried : List Char) : Option (List Char × Nat × Nat) :=
  let index := usizeSub (byteLen input) (byteLen tried)
  match truncate tried 100 with
  | none => none
  | some tr =>
    match locateScan index ((splitNl input).map byteLen) 0 0 0 with
    | some (l, c) => some (tr, l, c)
    | none => some (tr, 0, 0)

/-- Model of crate::sql::error::Error: the inner parser error kinds, each
carrying the unparsed remainder and, for clause-specific kinds, the
offending field text. -/
inductive SqlErr where
  | Parser (rem : List Char)
  | Field (rem : List Char) (fld : List Char)
  | Split (rem : List Char) (fld : List Char)
  | Order (rem : List Char) (fld : List Char)
  | Group (rem : List Char) (fld : List Char)
deriving DecidableEq

/-- The unparsed remainder carried by an inner parser error. -/
def SqlErr.rem : SqlErr → List Char
  | .Parser r => r
  | .Field r _ => r
  | .Split r _ => r
  | .Order r _ => r
  | .Group r _ => r

/-- Model of nom::Err as used by the source: recoverable error, failure, or
an incomplete-input report. -/
inductive NomErr where
  | Error (e : SqlErr)
  | Failure (e : SqlErr)
  | Incomplete
deriving DecidableEq

/-- Model of the IResult type of the grammar parsers: a function from input
to either (remainder, output) or a nom error. -/
abbrev IResult (O : Type) := List Char → Except NomErr (List Char × O)

/-- Model of the relevant variants of crate::err::Error. -/
inductive Error where
  | QueryEmpty
  | QueryRemaining
  | InvalidQuery (line ch : Nat) (sql : List Char)
  | InvalidField (line : Nat) (fld : List Char)
  | InvalidSplit (line : Nat) (fld : List Char)
  | InvalidOrder (line : Nat) (fld : List Char)
  | InvalidGroup (line : Nat) (fld : List Char)
deriving DecidableEq

/-- Model of fn parse_impl of the source.  none stands for a panic: either
the unreachable!() arm (reached exactly on a nom Incomplete result) or a
panicking slice inside locate. -/
def parse_impl {O : Type} (input : List Char) (parser : IResult O) :
    Option (Except Error O) :=
  match (trim input).length with
  | 0 => some (.error .QueryEmpty)
  | _ + 1 =>
    match parser input with
    | .ok (v, parsed) =>
      if v.isEmpty then some (.ok parsed) else some (.error .QueryRemaining)
    | .error (.Error e) | .error (.Failure e) =>
      match e with
      | .Parser r => (locate input r).map (fun x => .error (.InvalidQuery x.2.1 x.2.2 x.1))
      | .Field r f => (locate input r).map (fun x => .error (.InvalidField x.2.1 f))
      | .Split r f => (locate input r).map (fun x => .error (.InvalidSplit x.2.1 f))
      | .Order r f => (locate input r).map (fun x => .error (.InvalidOrder x.2.1 f))
      | .Group r f => (locate input r).map (fun x => .error (.InvalidGroup x.2.1 f))
    | .error .Incomplete => none

/-- Entry point fn parse, parameterized by the query grammar (which lives
outside the dispatch layer). -/
def parse {O : Type} (query : IResult O) (input : List Char) : Option (Except Error O) :=
  parse_impl input query

/-- Entry point fn sub_query, parameterized by the subquery grammar. -/
def sub_query {O : Type} (subquery : IResult O) (input : List Char) : Option (Except Error O) :=
  parse_impl input subquery

/-- Entry point fn thing, parameterized by the record-identity grammar. -/
def thing {O : Type} (thingGrammar : IResult O) (input : List Char) : Option (Except Error O) :=
  parse_impl input thingGrammar

/-- Entry point fn value, parameterized by the expression grammar. -/
def value {O : Type} (valueGrammar : IResult O) (input : List Char) : Option (Except Error O) :=
  parse_impl input valueGrammar

/-- Entry point fn json: trims the input, then dispatches to the inert
grammar. -/
def json {O : Type} (jsonGrammar : IResult O) (input : List Char) : Option (Except Error O) :=
  parse_impl (trim input) jsonGrammar

/-! Specification-side restatement of the diagnostic locator, written from
the words of the spec: byte offset of the failure, 1-based count of newline
boundaries strictly before that offset, and offset within the line. -/

/-- Count of newline characters whose byte position is strictly before the
byte offset off (spec wording for the line number, before the 1-basing). -/
def nlBefore : List Char → Nat → Nat
  | [], _ => 0
  | c :: rest, off =>
    if 0 < off then (if c = '\n' then 1 else 0) + nlBefore rest (off - utf8Len c) else 0

/-- Byte position of the last newline strictly before byte offset off, if
any: this determines the start of the line containing off. -/
def lastNl : List Char → Nat → Option Nat
  | [], _ => none
  | c :: rest, off =>
    if utf8Len c ≤ off then
      match lastNl rest (off - utf8Len c) with
      | some p => some (utf8Len c + p)
      | none => if c = '\n' then some 0 else none
    else none

/-- Offset within the line containing byte offset off, measured from the
start of that line (spec wording for the character offset). -/
def colAt (s : List Char) (off : Nat) : Nat :=
  match lastNl s off with
  | some p => off - (p + 1)
  | none => off

/-! Modelled collaborators.  The grammar modules (crate::sql::value,
crate::sql::query) and the binary codec for Query are code of the
repository that is not part of the excerpt; the definitions below model
them from the words of the spec. -/

/-- Modelled from the spec: the Value data model (spec section 3).  The
grammar sources are missing from the excerpt; this model keeps the variants
the claims depend on: literals (null, boolean, number, string, array) and
the executable forms (parameter reference and function call) that the inert
grammar must reject.  The remaining literal forms (object, duration,
datetime, UUID, record link, geometry, future) are omitted. -/
inductive Value where
  | null
  | bool (b : Bool)
  | num (n : Nat)
  | str (s : List Char)
  | arr (vs : List Value)
  | param (name : List Char)
  | call (name : List Char) (args : List Value)

/-- Alphabetic identifier characters of the modelled grammar. -/
def isAlphaC (c : Char) : Bool :=
  (97 ≤ c.toNat && c.toNat ≤ 122) || (65 ≤ c.toNat && c.toNat ≤ 90)

/-- Decimal digit characters. -/
def isDigitC (c : Char) : Bool := 48 ≤ c.toNat && c.toNat ≤ 57

/-- Skip leading whitespace. -/
def skipWs (s : List Char) : List Char := s.dropWhile isWs

/-- Lex one identifier: a nonempty run of alphabetic characters. -/
def identOf (s : List Char) : Option (List Char × List Char) :=
  match s.takeWhile isAlphaC with
  | [] => none
  | nm => some (nm, s.dropWhile isAlphaC)

/-- Numeric value of a digit run. -/
def natOfDigits (ds : List Char) : Nat :=
  ds.foldl (fun a c => 10 * a + (c.toNat - 48)) 0

/-- The single-quote character delimiting string literals. -/
def quoteChar : Char := Char.ofNat 39

/-- Match a keyword character by character, returning the rest of the
input on success. -/
def kwMatch : List Char → List Char → Option (List Char)
  | [], s => some s
  | _ :: _, [] => none
  | k :: ks, c :: s => if c = k then kwMatch ks s else none

mutual

/-- Modelled from the spec: the inert/JSON grammar entry (the source
crate::sql::value::json is missing from the excerpt).  Accepts only
literals — numbers, strings, booleans, null, arrays — and never parameter
references or function calls.  Fuel bounds the recursion depth. -/
def parseJsonV : Nat → List Char → Option (List Char × Value)
  | 0, _ => none
  | fuel + 1, s =>
    match s with
    | [] => none
    | c :: rest =>
      if c = quoteChar then
        match rest.dropWhile (· ≠ quoteChar) with
        | q :: r =>
          if q = quoteChar then some (r, .str (rest.takeWhile (· ≠ quoteChar))) else none
        | [] => none
      else if isDigitC c then
        some ((c :: rest).dropWhile isDigitC, .num (natOfDigits ((c :: rest).takeWhile isDigitC)))
      else if c = '[' then
        (parseJsonListV fuel (skipWs rest)).map (fun x => (x.1, .arr x.2))
      else
        match kwMatch ("true".toList) s with
        | some r => some (r, .bool true)
        | none =>
          match kwMatch ("false".toList) s with
          | some r => some (r, .bool false)
          | none =>
            match kwMatch ("null".toList) s with
            | some r => some (r, .null)
            | none => none

/-- Modelled from the spec: comma-separated array elements of the inert
grammar, up to the closing square bracket. -/
def parseJsonListV : Nat → List Char → Option (List Char × List Value)
  | 0, _ => none
  | fuel + 1, s =>
    match s with
    | [] => none
    | c :: rest =>
      if c = ']' then some (rest, [])
      else
        match parseJsonV fuel (c :: rest) with
        | none => none
        | some (r, v) =>
          match skipWs r with
          | ',' :: r2 => (parseJsonListV fuel (skipWs r2)).map (fun x => (x.1, v :: x.2))
          | c2 :: r2 => if c2 = ']' then some (r2, [v]) else none
          | [] => none

end

mutual

/-- Modelled from the spec: the full expression grammar entry (the source
crate::sql::value::value is missing from the excerpt).  Accepts every
literal of the inert grammar and additionally parameter references and
function calls. -/
def parseValueV : Nat → List Char → Option (List Char × Value)
  | 0, _ => none
  | fuel + 1, s =>
    match s with
    | [] => none
    | c :: rest =>
      if c = '$' then
        (identOf rest).map (fun x => (x.2, .param x.1))
      else if c = quoteChar then
        match rest.dropWhile (· ≠ quoteChar) with
        | q :: r =>
          if q = quoteChar then some (r, .str (rest.takeWhile (· ≠ quoteChar))) else none
        | [] => none
      else if isDigitC c then
        some ((c :: rest).dropWhile isDigitC, .num (natOfDigits ((c :: rest).takeWhile isDigitC)))
      else if c = '[' then
        (parseValueListV fuel (skipWs rest) ']').map (fun x => (x.1, .arr x.2))
      else
        match kwMatch ("true".toList) s with
        | some r => some (r, .bool true)
        | none =>
          match kwMatch ("false".toList) s with
          | some r => some (r, .bool false)
          | none =>
            match kwMatch ("null".toList) s with
            | some r => some (r, .null)
            | none =>
              match identOf s with
              | some (nm, '(' :: r) =>
                (parseValueListV fuel (skipWs r) ')').map (fun x => (x.1, .call nm x.2))
              | _ => none

/-- Modelled from the spec: comma-separated elements of the expression
grammar, up to the closing character cl. -/
def parseValueListV : Nat → List Char → Char → Option (List Char × List Value)
  | 0, _, _ => none
  | fuel + 1, s, cl =>
    match s with
    | [] => none
    | c :: rest =>
      if c = cl then some (rest, [])
      else
        match parseValueV fuel (c :: rest) with
        | none => none
        | some (r, v) =>
          match skipWs r with
          | ',' :: r2 => (parseValueListV fuel (skipWs r2) cl).map (fun x => (x.1, v :: x.2))
          | c2 :: r2 => if c2 = cl then some (r2, [v]) else none
          | [] => none

end

/-- Modelled from the spec: a Statement is a tagged variant over statement
kinds (spec section 3); the model keeps a RETURN statement carrying an
expression and a CREATE statement carrying a table name. -/
inductive Statement where
  | ret (v : Value)
  | create (tb : List Char)

/-- Modelled from the spec: a Query is an ordered sequence of Statements. -/
abbrev Query := List Statement

/-- Modelled from the spec: parse one statement (RETURN expression or
CREATE table). -/
def parseStmt (fuel : Nat) (s : List Char) : Option (List Char × Statement) :=
  match kwMatch ("RETURN".toList) s with
  | some r => (parseValueV fuel (skipWs r)).map (fun x => (x.1, .ret x.2))
  | none =>
    match kwMatch ("CREATE".toList) s with
    | some r => (identOf (skipWs r)).map (fun x => (x.2, .create x.1))
    | none => none

/-- Statement separators: whitespace and semicolons. -/
def isSep (c : Char) : Bool := isWs c || c = ';'

/-- Modelled from the spec: parse a sequence of statements tolerant of
repeated separators. -/
def parseStmts : Nat → List Char → Option (List Char × List Statement)
  | 0, _ => none
  | fuel + 1, s =>
    let s1 := s.dropWhile isSep
    if s1.isEmpty then some ([], [])
    else
      match parseStmt fuel s1 with
      | none => none
      | some (r, st) => (parseStmts fuel r).map (fun x => (x.1, st :: x.2))

/-- Modelled from the spec: the query grammar as an IResult parser; a
failure reports a generic grammar error carrying the unparsed remainder. -/
def queryG : IResult Query := fun s =>
  match parseStmts (s.length + 1) s with
  | some (r, sts) => .ok (r, sts)
  | none => .error (.Error (.Parser s))

/-- Modelled from the spec: the expression grammar as an IResult parser. -/
def valueG : IResult Value := fun s =>
  match parseValueV (s.length + 1) s with
  | some (r, v) => .ok (r, v)
  | none => .error (.Error (.Parser s))

/-- Modelled from the spec: the inert/JSON grammar as an IResult parser. -/
def jsonG : IResult Value := fun s =>
  match parseJsonV (s.length + 1) s with
  | some (r, v) => .ok (r, v)
  | none => .error (.Error (.Parser s))

mutual

/-- A Value is inert when it contains no parameter reference and no
function call anywhere inside it (spec wording: the inert grammar accepts
only literals, never parameters or calls). -/
def inert : Value → Bool
  | .null => true
  | .bool _ => true
  | .num _ => true
  | .str _ => true
  | .arr vs => inertL vs
  | .param _ => false
  | .call _ _ => false

/-- Every Value of the list is inert. -/
def inertL : List Value → Bool
  | [] => true
  | v :: vs => inert v && inertL vs

end

/-! Modelled from the spec: the lossless binary codec for Query (spec
sections 3 and 6).  The codec source (the Vec from Query and Query from
Vec conversions) is missing from the excerpt; the spec fixes no byte
layout, so the symbols of the code alphabet are naturals standing for
bytes. -/

mutual

/-- Modelled from the spec: binary encoding of a Value. -/
def encodeV : Value → List Nat
  | .null => [0]
  | .bool b => [1, if b then 1 else 0]
  | .num n => [2, n]
  | .str s => 3 :: s.length :: s.map Char.toNat
  | .arr vs => 4 :: vs.length :: encodeVs vs
  | .param nm => 5 :: nm.length :: nm.map Char.toNat
  | .call nm args => 6 :: nm.length :: (nm.map Char.toNat ++ args.length :: encodeVs args)

/-- Binary encoding of a list of Values, concatenated. -/
def encodeVs : List Value → List Nat
  | [] => []
  | v :: vs => encodeV v ++ encodeVs vs

end

mutual

/-- Structural size of a Value, used as decoding fuel. -/
def sizeV : Value → Nat
  | .null => 1
  | .bool _ => 1
  | .num _ => 1
  | .str _ => 1
  | .arr vs => 1 + sizeVs vs
  | .param _ => 1
  | .call _ args => 1 + sizeVs args

/-- Structural size of a list of Values. -/
def sizeVs : List Value → Nat
  | [] => 0
  | v :: vs => 1 + sizeV v + sizeVs vs

end

/-- Decode k character codes. -/
def decodeChars : Nat → List Nat → Option (List Char × List Nat)
  | 0, bs => some ([], bs)
  | _ + 1, [] => none
  | k + 1, b :: bs => (decodeChars k bs).map (fun x => (Char.ofNat b :: x.1, x.2))

mutual

/-- Modelled from the spec: binary decoding of a Value; rejects malformed
byte sequences with none instead of panicking. -/
def decodeV : Nat → List Nat → Option (Value × List Nat)
  | 0, _ => none
  | fuel + 1, bs =>
    match bs with
    | 0 :: r => some (.null, r)
    | 1 :: b :: r => some (.bool (b == 1), r)
    | 2 :: n :: r => some (.num n, r)
    | 3 :: n :: r => (decodeChars n r).map (fun x => (.str x.1, x.2))
    | 4 :: n :: r => (decodeVs fuel n r).map (fun x => (.arr x.1, x.2))
    | 5 :: n :: r => (decodeChars n r).map (fun x => (.param x.1, x.2))
    | 6 :: n :: r =>
      match decodeChars n r with
      | none => none
      | some (nm, r2) =>
        match r2 with
        | [] => none
        | k :: r3 => (decodeVs fuel k r3).map (fun x => (.call nm x.1, x.2))
    | _ => none

/-- Decode k consecutive Values. -/
def decodeVs : Nat → Nat → List Nat → Option (List Value × List Nat)
  | _, 0, bs => some ([], bs)
  | 0, _ + 1, _ => none
  | fuel + 1, k + 1, bs =>
    match decodeV fuel bs with
    | none => none
    | some (v, r) => (decodeVs fuel k r).map (fun x => (v :: x.1, x.2))

end

/-- Modelled from the spec: binary encoding of a Statement. -/
def encodeStmt : Statement → List Nat
  | .ret v => 0 :: encodeV v
  | .create tb => 1 :: tb.length :: tb.map Char.toNat

/-- Decoding fuel needed by a Statement. -/
def sizeStmt : Statement → Nat
  | .ret v => sizeV v
  | .create _ => 1

/-- Modelled from the spec: binary decoding of a Statement. -/
def decodeStmt (fuel : Nat) (bs : List Nat) : Option (Statement × List Nat) :=
  match bs with
  | 0 :: r => (decodeV fuel r).map (fun x => (.ret x.1, x.2))
  | 1 :: n :: r => (decodeChars n r).map (fun x => (.create x.1, x.2))
  | _ => none

/-- Decode k consecutive Statements. -/
def decodeStmtList : Nat → Nat → List Nat → Option (List Statement × List Nat)
  | _, 0, bs => some ([], bs)
  | fuel, k + 1, bs =>
    match decodeStmt fuel bs with
    | none => none
    | some (st, r) => (decodeStmtList fuel k r).map (fun x => (st :: x.1, x.2))

/-- Modelled from the spec: binary encoding of a Query (statement count
followed by the encoded statements). -/
def encodeQuery (q : Query) : List Nat := q.length :: (q.map encodeStmt).flatten

/-- Modelled from the spec: binary decoding of a Query; accepts exactly the
byte sequences produced by encodeQuery and rejects others with none. -/
def decodeQuery (bs : List Nat) : Option Query :=
  match bs with
  | [] => none
  | n :: r =>
    match decodeStmtList (2 * bs.length) n r with
    | some (q, []) => some q
    | _ => none

/-! Basic facts about byte lengths and the wrapping subtraction. -/

theorem utf8Len_pos (c : Char) : 1 ≤ utf8Len c := by
  unfold utf8Len
  split <;> try split <;> try split
  all_goals omega

theorem byteLen_nil : byteLen [] = 0 := rfl

theorem byteLen_cons (c : Char) (s : List Char) :
    byteLen (c :: s) = utf8Len c + byteLen s := by
  simp [byteLen]

theorem byteLen_append (s t : List Char) :
    byteLen (s ++ t) = byteLen s + byteLen t := by
  simp [byteLen]

theorem usizeSub_exact {a b : Nat} (hba : b ≤ a) (ha : a < USIZE) :
    usizeSub a b = a - b := by
  unfold usizeSub
  have hb : b < USIZE := lt_of_le_of_lt hba ha
  rw [Nat.mod_eq_of_lt ha, Nat.mod_eq_of_lt hb]
  have h1 : a + (USIZE - b) = (a - b) + USIZE := by omega
  rw [h1, Nat.add_mod_right, Nat.mod_eq_of_lt (by omega)]

/-! Facts about truncate: it always cuts at a character boundary and yields
exactly the prefix of the first l characters. -/

theorem charIndicesFrom_length (i : Nat) (s : List Char) :
    (charIndicesFrom i s).length = s.length := by
  induction s generalizing i with
  | nil => rfl
  | cons c rest ih => simp [charIndicesFrom, ih]

theorem charIndicesFrom_get (s : List Char) :
    ∀ (l i : Nat), l < s.length →
      ∃ c, (charIndicesFrom i s)[l]? = some (i + byteLen (s.take l), c) := by
  induction s with
  | nil => intro l i h; simp at h
  | cons a rest ih =>
    intro l i h
    cases l with
    | zero => exact ⟨a, by simp [charIndicesFrom, byteLen]⟩
    | succ l' =>
      have h' : l' < rest.length := by simpa using h
      obtain ⟨c, hc⟩ := ih l' (i + utf8Len a) h'
      refine ⟨c, ?_⟩
      simp only [charIndicesFrom, List.getElem?_cons_succ, hc, List.take_succ_cons,
        byteLen_cons]
      congr 2
      omega

theorem byteSlice_take (s : List Char) :
    ∀ k, k ≤ s.length → byteSlice s (byteLen (s.take k)) = some (s.take k) := by
  induction s with
  | nil =>
    intro k hk
    have hz : k = 0 := by simpa using hk
    subst hz
    simp [byteSlice, byteLen]
  | cons c rest ih =>
    intro k hk
    cases k with
    | zero => simp [byteSlice, byteLen]
    | succ k' =>
      have h1 : 1 ≤ utf8Len c := utf8Len_pos c
      have hby : byteLen ((c :: rest).take (k' + 1)) = utf8Len c + byteLen (rest.take k') := by
        simp [byteLen_cons]
      rw [hby]
      unfold byteSlice
      have hne : ¬(utf8Len c + byteLen (rest.take k') = 0) := by omega
      simp only [if_neg hne, if_pos (by omega : utf8Len c ≤ utf8Len c + byteLen (rest.take k'))]
      have hsub : utf8Len c + byteLen (rest.take k') - utf8Len c = byteLen (rest.take k') := by
        omega
      rw [hsub, ih k' (by simpa using hk)]
      simp

theorem truncate_take (s : List Char) (l : Nat) :
    truncate s l = some (s.take l) := by
  unfold truncate
  by_cases h : l < s.length
  · obtain ⟨c, hc⟩ := charIndicesFrom_get s l 0 h
    unfold char_indices
    rw [hc]
    simpa using byteSlice_take s l (le_of_lt h)
  · have hlen : (char_indices s).length ≤ l := by
      rw [char_indices, charIndicesFrom_length]; omega
    rw [List.getElem?_eq_none hlen, List.take_of_length_le (by omega)]

theorem locate_isSome (input tried : List Char) :
    ∃ l c, locate input tried = some (tried.take 100, l, c) := by
  unfold locate
  simp only [truncate_take]
  cases h : locateScan (usizeSub (byteLen input) (byteLen tried))
      ((splitNl input).map byteLen) 0 0 0 with
  | none => exact ⟨0, 0, by simp [h]⟩
  | some p => exact ⟨p.1, p.2, by simp [h]⟩

/-! Structure of splitNl and the spec-side locator functions. -/

theorem utf8Len_nl : utf8Len '\n' = 1 := by decide

theorem splitNl_decomp (s : List Char) :
    ('\n' ∉ s ∧ splitNl s = [s]) ∨
    ∃ l1 rest, s = l1 ++ '\n' :: rest ∧ '\n' ∉ l1 ∧ splitNl s = l1 :: splitNl rest := by
  induction s with
  | nil => exact Or.inl ⟨by simp, rfl⟩
  | cons c s' ih =>
    by_cases hc : c = '\n'
    · subst hc
      exact Or.inr ⟨[], s', by simp, by simp, by simp [splitNl]⟩
    · rcases ih with ⟨hn, he⟩ | ⟨l1, rest, hs, hn, he⟩
      · refine Or.inl ⟨?_, by simp [splitNl, hc, he]⟩
        intro hmem
        rcases List.mem_cons.mp hmem with h | h
        · exact hc h.symm
        · exact hn h
      · refine Or.inr ⟨c :: l1, rest, by simp [hs], ?_, by simp [splitNl, hc, he]⟩
        intro hmem
        rcases List.mem_cons.mp hmem with h | h
        · exact hc h.symm
        · exact hn h

theorem nlBefore_zero (s : List Char) : nlBefore s 0 = 0 := by
  cases s <;> simp [nlBefore]

theorem lastNl_zero (s : List Char) : lastNl s 0 = none := by
  cases s with
  | nil => rfl
  | cons c rest =>
    have h := utf8Len_pos c
    unfold lastNl
    rw [if_neg (by omega)]

theorem nlBefore_noNl {s : List Char} (hn : '\n' ∉ s) (off : Nat) :
    nlBefore s off = 0 := by
  induction s generalizing off with
  | nil => rfl
  | cons c rest ih =>
    have hc : ¬(c = '\n') := fun h => hn (h ▸ List.mem_cons_self c rest)
    have hr : '\n' ∉ rest := fun h => hn (List.mem_cons_of_mem c h)
    unfold nlBefore
    rw [if_neg hc]
    by_cases h0 : 0 < off
    · rw [if_pos h0, ih hr]
    · rw [if_neg h0]

theorem lastNl_noNl {s : List Char} (hn : '\n' ∉ s) (off : Nat) :
    lastNl s off = none := by
  induction s generalizing off with
  | nil => rfl
  | cons c rest ih =>
    have hc : ¬(c = '\n') := fun h => hn (h ▸ List.mem_cons_self c rest)
    have hr : '\n' ∉ rest := fun h => hn (List.mem_cons_of_mem c h)
    unfold lastNl
    by_cases h0 : utf8Len c ≤ off
    · rw [if_pos h0, ih hr, if_neg hc]
    · rw [if_neg h0]

theorem nlBefore_first (x : List Char) :
    ∀ (l1 : List Char) (off : Nat), '\n' ∉ l1 → off ≤ byteLen l1 →
      nlBefore (l1 ++ x) off = 0 := by
  intro l1
  induction l1 with
  | nil =>
    intro off _ hoff
    have : off = 0 := by simpa [byteLen] using hoff
    subst this
    exact nlBefore_zero x
  | cons c l1' ih =>
    intro off hn hoff
    have hc : ¬(c = '\n') := fun h => hn (h ▸ List.mem_cons_self c l1')
    have hr : '\n' ∉ l1' := fun h => hn (List.mem_cons_of_mem c h)
    rw [byteLen_cons] at hoff
    show nlBefore (c :: (l1' ++ x)) off = 0
    unfold nlBefore
    rw [if_neg hc]
    by_cases h0 : 0 < off
    · rw [if_pos h0, ih (off - utf8Len c) hr (by omega)]
    · rw [if_neg h0]

theorem lastNl_first (x : List Char) :
    ∀ (l1 : List Char) (off : Nat), '\n' ∉ l1 → off ≤ byteLen l1 →
      lastNl (l1 ++ x) off = none := by
  intro l1
  induction l1 with
  | nil =>
    intro off _ hoff
    have : off = 0 := by simpa [byteLen] using hoff
    subst this
    exact lastNl_zero x
  | cons c l1' ih =>
    intro off hn hoff
    have hc : ¬(c = '\n') := fun h => hn (h ▸ List.mem_cons_self c l1')
    have hr : '\n' ∉ l1' := fun h => hn (List.mem_cons_of_mem c h)
    rw [byteLen_cons] at hoff
    show lastNl (c :: (l1' ++ x)) off = none
    unfold lastNl
    by_cases h0 : utf8Len c ≤ off
    · rw [if_pos h0, ih (off - utf8Len c) hr (by omega), if_neg hc]
    · rw [if_neg h0]

theorem colAt_first (x l1 : List Char) (off : Nat) (hn : '\n' ∉ l1)
    (hoff : off ≤ byteLen l1) : colAt (l1 ++ x) off = off := by
  unfold colAt
  rw [lastNl_first x l1 off hn hoff]

theorem nlBefore_skip (rest : List Char) :
    ∀ (l1 : List Char) (off : Nat), '\n' ∉ l1 → byteLen l1 + 1 ≤ off →
      nlBefore (l1 ++ '\n' :: rest) off = 1 + nlBefore rest (off - (byteLen l1 + 1)) := by
  intro l1
  induction l1 with
  | nil =>
    intro off _ hoff
    rw [byteLen_nil] at hoff
    show nlBefore ('\n' :: rest) off = _
    conv_lhs => rw [nlBefore]
    rw [if_pos (by omega), if_pos rfl, utf8Len_nl, byteLen_nil]
  | cons c l1' ih =>
    intro off hn hoff
    have hc : ¬(c = '\n') := fun h => hn (h ▸ List.mem_cons_self c l1')
    have hr : '\n' ∉ l1' := fun h => hn (List.mem_cons_of_mem c h)
    rw [byteLen_cons] at hoff
    have hpos := utf8Len_pos c
    show nlBefore (c :: (l1' ++ '\n' :: rest)) off = _
    conv_lhs => rw [nlBefore]
    rw [if_pos (by omega), if_neg hc, ih (off - utf8Len c) hr (by omega)]
    have harith : off - utf8Len c - (byteLen l1' + 1) = off - (byteLen (c :: l1') + 1) := by
      rw [byteLen_cons]; omega
    rw [harith]
    omega

theorem lastNl_skip (rest : List Char) :
    ∀ (l1 : List Char) (off : Nat), '\n' ∉ l1 → byteLen l1 + 1 ≤ off →
      lastNl (l1 ++ '\n' :: rest) off =
        some (byteLen l1 +
          (match lastNl rest (off - (byteLen l1 + 1)) with
           | some p => 1 + p
           | none => 0)) := by
  intro l1
  induction l1 with
  | nil =>
    intro off _ hoff
    rw [byteLen_nil] at hoff
    show lastNl ('\n' :: rest) off = _
    conv_lhs => rw [lastNl]
    rw [utf8Len_nl, if_pos (by omega), byteLen_nil]
    cases h : lastNl rest (off - (0 + 1)) with
    | some p => simp [show off - 1 = off - (0 + 1) from by omega, h]
    | none => simp [show off - 1 = off - (0 + 1) from by omega, h]
  | cons c l1' ih =>
    intro off hn hoff
    have hc : ¬(c = '\n') := fun h => hn (h ▸ List.mem_cons_self c l1')
    have hr : '\n' ∉ l1' := fun h => hn (List.mem_cons_of_mem c h)
    rw [byteLen_cons] at hoff
    have hpos := utf8Len_pos c
    show lastNl (c :: (l1' ++ '\n' :: rest)) off = _
    conv_lhs => rw [lastNl]
    rw [if_pos (by omega), ih (off - utf8Len c) hr (by omega)]
    have harith : off - utf8Len c - (byteLen l1' + 1) = off - (byteLen (c :: l1') + 1) := by
      rw [byteLen_cons]; omega
    rw [harith]
    cases h : lastNl rest (off - (byteLen (c :: l1') + 1)) with
    | some p => simp [h, byteLen_cons]; omega
    | none => simp [h, byteLen_cons]

theorem colAt_skip (rest l1 : List Char) (off : Nat) (hn : '\n' ∉ l1)
    (hoff : byteLen l1 + 1 ≤ off) :
    colAt (l1 ++ '\n' :: rest) off = colAt rest (off - (byteLen l1 + 1)) := by
  have hs := lastNl_skip rest l1 off hn hoff
  unfold colAt
  cases h : lastNl rest (off - (byteLen l1 + 1)) with
  | some p =>
    rw [h] at hs
    rw [hs]
    show off - (byteLen l1 + (1 + p) + 1) = off - (byteLen l1 + 1) - (p + 1)
    omega
  | none =>
    rw [h] at hs
    rw [hs]
    show off - (byteLen l1 + 0 + 1) = off - (byteLen l1 + 1)
    omega

/-- Correctness of the scanning loop of fn locate: when the failure offset
index is at most the byte length of the input, the loop stops at the line
containing the offset and reports the 1-based line number (the count of
newline boundaries strictly before the offset, plus one) and the offset
within that line. -/
theorem scan_correct :
    ∀ (n : Nat) (input : List Char) (index line acc : Nat), input.length ≤ n →
      index ≤ byteLen input → index + acc < USIZE →
      locateScan (index + acc) ((splitNl input).map byteLen) line acc acc =
        some (line + nlBefore input index + 1, colAt input index) := by
  intro n
  induction n with
  | zero =>
    intro input index line acc hlen hidx husz
    have hinp : input = [] := List.length_eq_zero.mp (Nat.le_zero.mp hlen)
    subst hinp
    have hi0 : index = 0 := by simpa [byteLen] using hidx
    subst hi0
    show locateScan (0 + acc) [byteLen []] line acc acc = _
    unfold locateScan
    rw [if_pos (by rw [byteLen_nil]; omega)]
    rw [usizeSub_exact (by omega) husz]
    show _ = some (line + nlBefore [] 0 + 1, colAt [] 0)
    rw [nlBefore_zero]
    unfold colAt
    rw [lastNl_zero]
    simp
  | succ n ih =>
    intro input index line acc hlen hidx husz
    rcases splitNl_decomp input with ⟨hn, he⟩ | ⟨l1, rest, hs, hn, he⟩
    · rw [he]
      show locateScan (index + acc) [byteLen input] line acc acc = _
      unfold locateScan
      rw [if_pos (by omega)]
      rw [usizeSub_exact (by omega) husz]
      rw [nlBefore_noNl hn]
      unfold colAt
      rw [lastNl_noNl hn]
      simp
    · have hlble : byteLen input = byteLen l1 + 1 + byteLen rest := by
        rw [hs, byteLen_append, byteLen_cons, utf8Len_nl]
        omega
      have hllen : input.length = l1.length + 1 + rest.length := by
        rw [hs]
        simp
        omega
      rw [he, List.map_cons]
      by_cases hA : index < byteLen l1 + 1
      · unfold locateScan
        rw [if_pos (by omega)]
        rw [usizeSub_exact (by omega) husz]
        rw [hs, nlBefore_first _ _ _ hn (by omega), colAt_first _ _ _ hn (by omega)]
        simp
      · unfold locateScan
        rw [if_neg (by omega)]
        have harr : index + acc = (index - (byteLen l1 + 1)) + (acc + (byteLen l1 + 1)) := by
          omega
        rw [harr]
        rw [ih rest (index - (byteLen l1 + 1)) (line + 1) (acc + (byteLen l1 + 1))
          (by omega) (by omega) (by omega)]
        rw [hs, nlBefore_skip _ _ _ hn (by omega), colAt_skip _ _ _ hn (by omega)]
        simp only [Option.some.injEq, Prod.mk.injEq]
        simp
        omega

/-! Round-trip of the binary codec. -/

theorem decodeChars_map (s : List Char) :
    ∀ rest, decodeChars s.length (s.map Char.toNat ++ rest) = some (s, rest) := by
  induction s with
  | nil => intro rest; simp [decodeChars]
  | cons c s' ih => intro rest; simp [decodeChars, ih]

theorem sizeV_pos : ∀ v : Value, 1 ≤ sizeV v := by
  intro v
  cases v <;> simp [sizeV]

theorem codec_roundtrip :
    ∀ fuel : Nat,
      (∀ (v : Value) (rest : List Nat), sizeV v ≤ fuel →
        decodeV fuel (encodeV v ++ rest) = some (v, rest)) ∧
      (∀ (vs : List Value) (rest : List Nat), sizeVs vs ≤ fuel →
        decodeVs fuel vs.length (encodeVs vs ++ rest) = some (vs, rest)) := by
  intro fuel
  induction fuel with
  | zero =>
    constructor
    · intro v rest h
      exact absurd h (by have := sizeV_pos v; omega)
    · intro vs rest h
      cases vs with
      | nil => simp [encodeVs, decodeVs]
      | cons v vs' =>
        exfalso
        have := sizeV_pos v
        simp [sizeVs] at h
  | succ fuel ih =>
    constructor
    · intro v rest h
      cases v with
      | null => simp [encodeV, decodeV]
      | bool b => cases b <;> simp [encodeV, decodeV]
      | num n => simp [encodeV, decodeV]
      | str s => simp [encodeV, decodeV, decodeChars_map]
      | arr vs =>
        have hs : sizeVs vs ≤ fuel := by simp [sizeV] at h; omega
        simp [encodeV, decodeV, ih.2 vs rest hs]
      | param nm => simp [encodeV, decodeV, decodeChars_map]
      | call nm args =>
        have hs : sizeVs args ≤ fuel := by simp [sizeV] at h; omega
        simp [encodeV, decodeV, decodeChars_map, ih.2 args rest hs]
    · intro vs rest h
      cases vs with
      | nil => simp [encodeVs, decodeVs]
      | cons v vs' =>
        have h1 : sizeV v ≤ fuel := by simp [sizeVs] at h; omega
        have h2 : sizeVs vs' ≤ fuel := by simp [sizeVs] at h; omega
        simp [encodeVs, decodeVs, ih.1 v (encodeVs vs' ++ rest) h1, ih.2 vs' rest h2]

theorem decodeStmt_roundtrip (st : Statement) (fuel : Nat) (rest : List Nat)
    (h : sizeStmt st ≤ fuel) :
    decodeStmt fuel (encodeStmt st ++ rest) = some (st, rest) := by
  cases st with
  | ret v =>
    simp [encodeStmt, decodeStmt,
      (codec_roundtrip fuel).1 v rest (by simpa [sizeStmt] using h)]
  | create tb => simp [encodeStmt, decodeStmt, decodeChars_map]

theorem decodeStmtList_roundtrip :
    ∀ (q : Query) (fuel : Nat) (rest : List Nat), (∀ st ∈ q, sizeStmt st ≤ fuel) →
      decodeStmtList fuel q.length ((q.map encodeStmt).flatten ++ rest) = some (q, rest) := by
  intro q
  induction q with
  | nil => intro fuel rest _; simp [decodeStmtList]
  | cons st q' ih =>
    intro fuel rest hall
    have h1 : sizeStmt st ≤ fuel := hall st (List.mem_cons_self st q')
    have h2 : ∀ s ∈ q', sizeStmt s ≤ fuel := fun s hs => hall s (List.mem_cons_of_mem _ hs)
    simp [decodeStmtList, decodeStmt_roundtrip st fuel _ h1, ih fuel rest h2]

theorem size_le_len :
    ∀ n : Nat,
      (∀ v : Value, sizeV v ≤ n → sizeV v + 1 ≤ 2 * (encodeV v).length) ∧
      (∀ vs : List Value, sizeVs vs ≤ n → sizeVs vs ≤ 2 * (encodeVs vs).length) := by
  intro n
  induction n with
  | zero =>
    constructor
    · intro v h
      exact absurd h (by have := sizeV_pos v; omega)
    · intro vs h
      cases vs with
      | nil => simp [sizeVs]
      | cons v vs' =>
        exfalso
        have := sizeV_pos v
        simp [sizeVs] at h
  | succ n ih =>
    constructor
    · intro v h
      cases v with
      | null => simp [sizeV, encodeV]
      | bool b => simp [sizeV, encodeV]
      | num n' => simp [sizeV, encodeV]
      | str s => simp [sizeV, encodeV]
      | arr vs =>
        have hvs := ih.2 vs (by simp [sizeV] at h; omega)
        simp [sizeV, encodeV] at hvs ⊢
        omega
      | param nm => simp [sizeV, encodeV]
      | call nm args =>
        have hvs := ih.2 args (by simp [sizeV] at h; omega)
        simp [sizeV, encodeV] at hvs ⊢
        omega
    · intro vs h
      cases vs with
      | nil => simp [sizeVs]
      | cons v vs' =>
        have h1 := ih.1 v (by simp [sizeVs] at h; omega)
        have h2 := ih.2 vs' (by simp [sizeVs] at h; omega)
        simp [sizeVs, encodeVs] at h1 h2 ⊢
        omega

theorem sizeStmt_le (st : Statement) : sizeStmt st ≤ 2 * (encodeStmt st).length := by
  cases st with
  | ret v =>
    have hb := (size_le_len (sizeV v)).1 v le_rfl
    simp [sizeStmt, encodeStmt]
    omega
  | create tb =>
    simp [sizeStmt, encodeStmt]
    omega

theorem mem_len_le_flatten (st : Statement) :
    ∀ q : Query, st ∈ q → (encodeStmt st).length ≤ ((q.map encodeStmt).flatten).length := by
  intro q
  induction q with
  | nil => intro h; simp at h
  | cons s q' ih =>
    intro h
    rcases List.mem_cons.mp h with rfl | h'
    · simp
    · have hq := ih h'
      simp at hq ⊢
      omega

theorem encodeQuery_roundtrip (q : Query) : decodeQuery (encodeQuery q) = some q := by
  have hall : ∀ st ∈ q, sizeStmt st ≤ 2 * ((q.map encodeStmt).flatten.length + 1) := by
    intro st hst
    have h1 := sizeStmt_le st
    have h2 := mem_len_le_flatten st q hst
    omega
  have hdec := decodeStmtList_roundtrip q (2 * ((q.map encodeStmt).flatten.length + 1)) [] hall
  rw [List.append_nil] at hdec
  simp only [decodeQuery, encodeQuery, List.length_cons]
  rw [hdec]

/-- C1: for every query q obtained from a successful parse of a non-empty
syntactically valid input, decoding the binary encoding of q yields a Query
structurally equal to q: decodeQuery (encodeQuery q) = some q. -/
theorem claim_C1_roundtrip (input : List Char) (q : Query)
    (_ : parse queryG input = some (.ok q)) :
    decodeQuery (encodeQuery q) = some q :=
  encodeQuery_roundtrip q

/-- Witness for C1: the input RETURN 7 parses to one RETURN statement and
its encoding decodes back to it. -/
theorem claim_C1_witness :
    decodeQuery (encodeQuery [Statement.ret (Value.num 7)]) =
      some [Statement.ret (Value.num 7)] :=
  claim_C1_roundtrip ("RETURN 7".toList) [Statement.ret (Value.num 7)] (by rfl)

/-! Claims about the dispatch layer (parse_impl) and the locator. -/

theorem parse_impl_empty {O : Type} (g : IResult O) (input : List Char)
    (h : trim input = []) : parse_impl input g = some (.error .QueryEmpty) := by
  unfold parse_impl
  rw [h]
  rfl

/-- C3: for every input whose whitespace-trimmed form has zero length, every
entry point (parse, sub_query, thing, value, json) returns QueryEmpty; the
grammar parser is never invoked, as the result is the same for every
grammar g. -/
theorem claim_C3_query_empty {O : Type} (g : IResult O) (input : List Char)
    (h : trim input = []) :
    parse g input = some (.error .QueryEmpty) ∧
    sub_query g input = some (.error .QueryEmpty) ∧
    thing g input = some (.error .QueryEmpty) ∧
    value g input = some (.error .QueryEmpty) ∧
    json g input = some (.error .QueryEmpty) := by
  have hj : trim (trim input) = [] := by rw [h]; rfl
  exact ⟨parse_impl_empty g input h, parse_impl_empty g input h, parse_impl_empty g input h,
    parse_impl_empty g input h, parse_impl_empty g (trim input) hj⟩

/-- Witness for C3: a whitespace-only input yields QueryEmpty at every
entry point. -/
theorem claim_C3_witness :
    parse (fun s => Except.ok (s, (0 : Nat))) [' '] = some (.error .QueryEmpty) ∧
    sub_query (fun s => Except.ok (s, (0 : Nat))) [' '] = some (.error .QueryEmpty) ∧
    thing (fun s => Except.ok (s, (0 : Nat))) [' '] = some (.error .QueryEmpty) ∧
    value (fun s => Except.ok (s, (0 : Nat))) [' '] = some (.error .QueryEmpty) ∧
    json (fun s => Except.ok (s, (0 : Nat))) [' '] = some (.error .QueryEmpty) :=
  claim_C3_query_empty (fun s => Except.ok (s, (0 : Nat))) [' '] (by decide)

/-- C4: when the grammar succeeds on a non-empty input, the entry point
returns Ok exactly when the unconsumed remainder is empty; a non-empty
remainder yields QueryRemaining, never a partial success. -/
theorem claim_C4_full_consumption {O : Type} (g : IResult O) (input v : List Char)
    (parsed : O) (hne : trim input ≠ []) (hok : g input = .ok (v, parsed)) :
    (parse_impl input g = some (.ok parsed) ↔ v = []) ∧
    (v ≠ [] → parse_impl input g = some (.error .QueryRemaining)) := by
  cases htrim : trim input with
  | nil => exact absurd htrim hne
  | cons c cs =>
    have hmain : parse_impl input g =
        if v.isEmpty then some (.ok parsed) else some (.error .QueryRemaining) := by
      simp only [parse_impl, htrim, List.length_cons, hok]
    have hemp : ∀ hv : v ≠ [], v.isEmpty = false := by
      intro hv
      cases v with
      | nil => exact absurd rfl hv
      | cons a as => rfl
    constructor
    · constructor
      · intro hres
        by_contra hv
        rw [hmain, hemp hv] at hres
        simp at hres
      · intro hv
        subst hv
        rw [hmain]
        rfl
    · intro hv
      rw [hmain, hemp hv]
      rfl

/-- Witness for C4: a grammar that consumes the whole input yields Ok, and
one that leaves a remainder yields QueryRemaining. -/
theorem claim_C4_witness :
    (parse_impl ['a'] (fun _ => Except.ok (([] : List Char), (5 : Nat))) =
      some (.ok 5) ↔ ([] : List Char) = []) ∧
    ((['a'] : List Char) ≠ [] → parse_impl ['a'] (fun _ => Except.ok ((['a'] : List Char), (5 : Nat))) =
      some (.error .QueryRemaining)) :=
  ⟨(claim_C4_full_consumption (fun _ => Except.ok (([] : List Char), (5 : Nat)))
      ['a'] [] 5 (by decide) rfl).1,
   (claim_C4_full_consumption (fun _ => Except.ok ((['a'] : List Char), (5 : Nat)))
      ['a'] ['a'] 5 (by decide) rfl).2⟩

theorem parse_impl_isSome {O : Type} (g : IResult O) (input : List Char)
    (hinc : g input ≠ .error .Incomplete) : (parse_impl input g).isSome := by
  cases htrim : trim input with
    | nil => simp [parse_impl_empty g input htrim]
    | cons c cs =>
      cases hg : g input with
      | ok pr =>
        obtain ⟨v, parsed⟩ := pr
        by_cases hv : v.isEmpty <;>
          simp [parse_impl, htrim, hg, hv]
      | error ne =>
        cases ne with
        | Incomplete => exact absurd hg hinc
        | Error e =>
          cases e with
          | Parser r =>
            obtain ⟨l, ch, hl⟩ := locate_isSome input r
            simp [parse_impl, htrim, hg, hl]
          | Field r f =>
            obtain ⟨l, ch, hl⟩ := locate_isSome input r
            simp [parse_impl, htrim, hg, hl]
          | Split r f =>
            obtain ⟨l, ch, hl⟩ := locate_isSome input r
            simp [parse_impl, htrim, hg, hl]
          | Order r f =>
            obtain ⟨l, ch, hl⟩ := locate_isSome input r
            simp [parse_impl, htrim, hg, hl]
          | Group r f =>
            obtain ⟨l, ch, hl⟩ := locate_isSome input r
            simp [parse_impl, htrim, hg, hl]
        | Failure e =>
          cases e with
          | Parser r =>
            obtain ⟨l, ch, hl⟩ := locate_isSome input r
            simp [parse_impl, htrim, hg, hl]
          | Field r f =>
            obtain ⟨l, ch, hl⟩ := locate_isSome input r
            simp [parse_impl, htrim, hg, hl]
          | Split r f =>
            obtain ⟨l, ch, hl⟩ := locate_isSome input r
            simp [parse_impl, htrim, hg, hl]
          | Order r f =>
            obtain ⟨l, ch, hl⟩ := locate_isSome input r
            simp [parse_impl, htrim, hg, hl]
          | Group r f =>
            obtain ⟨l, ch, hl⟩ := locate_isSome input r
            simp [parse_impl, htrim, hg, hl]

theorem queryG_no_inc (s : List Char) : queryG s ≠ .error .Incomplete := by
  unfold queryG
  cases h : parseStmts (s.length + 1) s with
  | none => simp
  | some pr =>
    obtain ⟨r, v⟩ := pr
    simp

theorem valueG_no_inc (s : List Char) : valueG s ≠ .error .Incomplete := by
  unfold valueG
  cases h : parseValueV (s.length + 1) s with
  | none => simp
  | some pr =>
    obtain ⟨r, v⟩ := pr
    simp

theorem jsonG_no_inc (s : List Char) : jsonG s ≠ .error .Incomplete := by
  unfold jsonG
  cases h : parseJsonV (s.length + 1) s with
  | none => simp
  | some pr =>
    obtain ⟨r, v⟩ := pr
    simp

/-- C2: for every input and every grammar that does not report Incomplete,
parse_impl returns a structured result — the unreachable arm is not taken
and nothing panics; when the grammar's error remainders are no longer than
the input, the subtraction inside locate does not wrap; and the entry
points applied to the modelled grammars (which never report Incomplete)
always return a structured result. -/
theorem claim_C2_no_panic {O : Type} (g : IResult O) (input : List Char)
    (hinc : g input ≠ .error .Incomplete)
    (hrem : ∀ e : SqlErr, (g input = .error (.Error e) ∨ g input = .error (.Failure e)) →
      byteLen e.rem ≤ byteLen input) :
    (parse_impl input g).isSome ∧
    (byteLen input < USIZE → ∀ e : SqlErr,
      (g input = .error (.Error e) ∨ g input = .error (.Failure e)) →
      usizeSub (byteLen input) (byteLen e.rem) = byteLen input - byteLen e.rem) ∧
    (parse queryG input).isSome ∧
    (value valueG input).isSome ∧
    (json jsonG input).isSome :=
  ⟨parse_impl_isSome g input hinc,
   fun hU e he => usizeSub_exact (hrem e he) hU,
   parse_impl_isSome queryG input (queryG_no_inc input),
   parse_impl_isSome valueG input (valueG_no_inc input),
   parse_impl_isSome jsonG (trim input) (jsonG_no_inc (trim input))⟩

/-- Witness for C2: a grammar failing with a Parser error whose remainder is
a suffix of the input still produces a structured result. -/
theorem claim_C2_witness :
    (parse_impl ['a', 'b']
      ((fun _ => Except.error (NomErr.Error (SqlErr.Parser ['b']))) : IResult Nat)).isSome :=
  (claim_C2_no_panic ((fun _ => Except.error (NomErr.Error (SqlErr.Parser ['b']))) : IResult Nat)
    ['a', 'b']
    (by intro h; simp at h)
    (by
      intro e he
      rcases he with h | h
      · simp only [Except.error.injEq, NomErr.Error.injEq] at h
        subst h
        decide
      · simp at h)).1

/-- C5: for every input and suffix tail, locate computes the failure byte
offset as byteLen input - byteLen tail, returns the 1-based count of
newline boundaries strictly before that offset as the line number, and the
offset within that line (from the line start) as the character offset. -/
theorem claim_C5_locate_spec (input tail : List Char)
    (hsuf : tail <:+ input) (hU : byteLen input < USIZE) :
    locate input tail =
      some (tail.take 100,
        nlBefore input (byteLen input - byteLen tail) + 1,
        colAt input (byteLen input - byteLen tail)) := by
  obtain ⟨pre, hpre⟩ := hsuf
  have hble : byteLen tail ≤ byteLen input := by
    rw [← hpre, byteLen_append]
    omega
  have hscan := scan_correct input.length input (byteLen input - byteLen tail) 0 0
    le_rfl (by omega) (by omega)
  rw [Nat.add_zero] at hscan
  simp only [locate, truncate_take]
  rw [usizeSub_exact hble hU, hscan]
  simp

/-- Witness for C5: in a two-line input the failure on the second line is
located at line 2, character offset 1. -/
theorem claim_C5_witness :
    locate ("ab\ncd".toList) ("d".toList) =
      some (("d".toList).take 100,
        nlBefore ("ab\ncd".toList) (byteLen ("ab\ncd".toList) - byteLen ("d".toList)) + 1,
        colAt ("ab\ncd".toList) (byteLen ("ab\ncd".toList) - byteLen ("d".toList))) :=
  claim_C5_locate_spec ("ab\ncd".toList) ("d".toList) ⟨("ab\nc".toList), by decide⟩ (by decide)

/-- C6: the diagnostic snippet truncate s 100 is a prefix of s of at most
100 characters, cut only at a character boundary (it never fails on any s,
so it never cuts inside a multi-byte code point), and equals s whenever s
has at most 100 characters. -/
theorem claim_C6_truncate (s : List Char) :
    truncate s 100 = some (s.take 100) ∧
    s.take 100 <+: s ∧
    (s.take 100).length ≤ 100 ∧
    (s.length ≤ 100 → truncate s 100 = some s) := by
  refine ⟨truncate_take s 100, ⟨s.drop 100, List.take_append_drop 100 s⟩, ?_, ?_⟩
  · rw [List.length_take]
    omega
  · intro h
    rw [truncate_take, List.take_of_length_le h]

/-- Witness for C6: a short input containing a multi-byte character is
returned whole. -/
theorem claim_C6_witness :
    truncate ("héllo".toList) 100 = some (("héllo".toList).take 100) ∧
    ("héllo".toList).take 100 <+: ("héllo".toList) ∧
    (("héllo".toList).take 100).length ≤ 100 ∧
    (("héllo".toList).length ≤ 100 → truncate ("héllo".toList) 100 = some ("héllo".toList)) :=
  claim_C6_truncate ("héllo".toList)

/-- C7: a clause-tagged inner error (Field, Split, Order or Group, carrying
remainder r and field text f) is mapped by the entry point to the matching
clause-specific error carrying the line located from r and the field f,
never a generic InvalidQuery. -/
theorem claim_C7_clause_errors {O : Type} (g : IResult O) (input r f : List Char)
    (l ch : Nat) (snip : List Char)
    (hne : trim input ≠ [])
    (hloc : locate input r = some (snip, l, ch)) :
    ((g input = .error (.Error (.Field r f)) ∨ g input = .error (.Failure (.Field r f))) →
      parse_impl input g = some (.error (.InvalidField l f))) ∧
    ((g input = .error (.Error (.Split r f)) ∨ g input = .error (.Failure (.Split r f))) →
      parse_impl input g = some (.error (.InvalidSplit l f))) ∧
    ((g input = .error (.Error (.Order r f)) ∨ g input = .error (.Failure (.Order r f))) →
      parse_impl input g = some (.error (.InvalidOrder l f))) ∧
    ((g input = .error (.Error (.Group r f)) ∨ g input = .error (.Failure (.Group r f))) →
      parse_impl input g = some (.error (.InvalidGroup l f))) := by
  cases htrim : trim input with
  | nil => exact absurd htrim hne
  | cons c cs =>
    refine ⟨?_, ?_, ?_, ?_⟩ <;>
      (intro h; rcases h with hg | hg <;> simp [parse_impl, htrim, hg, hloc])

/-- Witness for C7: an Order-tagged failure becomes InvalidOrder with the
located line and the offending field text. -/
theorem claim_C7_witness :
    parse_impl ['a']
      ((fun _ => Except.error (NomErr.Error (SqlErr.Order ['x'] ['f']))) : IResult Nat) =
      some (.error (.InvalidOrder 1 ['f'])) :=
  (claim_C7_clause_errors
    ((fun _ => Except.error (NomErr.Error (SqlErr.Order ['x'] ['f']))) : IResult Nat)
    ['a'] ['x'] ['f'] 1 0 ['x'] (by decide) (by decide)).2.2.1 (Or.inl rfl)

/-- C9: whenever the line scan finds no line whose cumulative bound exceeds
the failure offset, locate falls back to location (0, 0) with the truncated
snippet instead of failing. -/
theorem claim_C9_fallback (input tried : List Char)
    (h : locateScan (usizeSub (byteLen input) (byteLen tried))
      ((splitNl input).map byteLen) 0 0 0 = none) :
    locate input tried = some (tried.take 100, 0, 0) := by
  simp only [locate, truncate_take]
  rw [h]

/-- Witness for C9: when the tried remainder is longer than the input the
wrapped offset exceeds every line bound and the fallback (0, 0) is
returned. -/
theorem claim_C9_witness :
    locate ['a'] ['a', 'b'] = some ((['a', 'b'] : List Char).take 100, 0, 0) :=
  claim_C9_fallback ['a'] ['a', 'b'] (by decide)

/-- C10: for every tail no longer than the input, the scan of locate always
finds a line, the returned line number is at least 1, and the (0, 0)
fallback branch is unreachable. -/
theorem claim_C10_no_fallback (input tried : List Char)
    (hle : byteLen tried ≤ byteLen input) (hU : byteLen input < USIZE) :
    ∃ l c, locateScan (usizeSub (byteLen input) (byteLen tried))
        ((splitNl input).map byteLen) 0 0 0 = some (l, c) ∧
      1 ≤ l ∧ locate input tried = some (tried.take 100, l, c) := by
  have hscan := scan_correct input.length input (byteLen input - byteLen tried) 0 0
    le_rfl (by omega) (by omega)
  rw [Nat.add_zero] at hscan
  refine ⟨0 + nlBefore input (byteLen input - byteLen tried) + 1,
    colAt input (byteLen input - byteLen tried), ?_, by omega, ?_⟩
  · rw [usizeSub_exact hle hU]
    exact hscan
  · simp only [locate, truncate_take]
    rw [usizeSub_exact hle hU, hscan]

/-- Witness for C10: a two-line input with the remainder on the second line
is located on line 2, never through the fallback. -/
theorem claim_C10_witness :
    ∃ l c, locateScan (usizeSub (byteLen ['a', '\n', 'b']) (byteLen ['b']))
        ((splitNl ['a', '\n', 'b']).map byteLen) 0 0 0 = some (l, c) ∧
      1 ≤ l ∧ locate ['a', '\n', 'b'] ['b'] = some ((['b'] : List Char).take 100, l, c) :=
  claim_C10_no_fallback ['a', '\n', 'b'] ['b'] (by decide) (by decide)

/-! Claim C8: the inert/JSON grammar rejects parameters and calls that the
expression grammar accepts. -/

theorem takeWhile_of_all {p : Char → Bool} :
    ∀ s : List Char, s.all p = true → s.takeWhile p = s ∧ s.dropWhile p = [] := by
  intro s
  induction s with
  | nil => intro _; exact ⟨rfl, rfl⟩
  | cons c cs ih =>
    intro h
    rw [List.all_cons, Bool.and_eq_true] at h
    obtain ⟨h1, h2⟩ := ih h.2
    constructor
    · simp [List.takeWhile_cons, h.1, h1]
    · rw [List.dropWhile_cons, h.1]
      simpa using h2

theorem alpha_not_ws {c : Char} (h : isAlphaC c = true) : isWs c = false := by
  simp only [isAlphaC, Bool.or_eq_true, Bool.and_eq_true, decide_eq_true_eq] at h
  simp only [isWs, Bool.or_eq_false_iff, decide_eq_false_iff_not]
  omega

theorem dropWhile_no_ws (s : List Char) (h : ∀ c ∈ s, isWs c = false) :
    s.dropWhile isWs = s := by
  cases s with
  | nil => rfl
  | cons c cs =>
    rw [List.dropWhile_cons, h c (List.mem_cons_self c cs)]
    simp

theorem trim_no_ws (s : List Char) (h : ∀ c ∈ s, isWs c = false) : trim s = s := by
  unfold trim
  rw [dropWhile_no_ws s h,
    dropWhile_no_ws s.reverse (fun c hc => h c (List.mem_reverse.mp hc)),
    List.reverse_reverse]

theorem dollar_nonws (nm : List Char) (halpha : nm.all isAlphaC = true) :
    ∀ c ∈ '$' :: nm, isWs c = false := by
  intro c hc
  rcases List.mem_cons.mp hc with rfl | hmem
  · decide
  · exact alpha_not_ws (List.all_eq_true.mp halpha c hmem)

theorem valueG_param (nm : List Char) (hne : nm ≠ []) (halpha : nm.all isAlphaC = true) :
    valueG ('$' :: nm) = .ok ([], .param nm) := by
  obtain ⟨htk, hdr⟩ := takeWhile_of_all nm halpha
  cases nm with
  | nil => exact absurd rfl hne
  | cons a as =>
    unfold valueG
    have hval : parseValueV (('$' :: a :: as).length + 1) ('$' :: a :: as) =
        some ([], .param (a :: as)) := by
      show parseValueV ((a :: as).length + 1 + 1) ('$' :: a :: as) = _
      simp only [parseValueV, if_true]
      unfold identOf
      rw [htk, hdr]
      rfl
    rw [hval]

theorem jsonV_dollar (s : List Char) (fuel : Nat) :
    parseJsonV (fuel + 1) ('$' :: s) = none := by
  simp only [parseJsonV]
  rw [if_neg (by decide), if_neg (by decide), if_neg (by decide)]
  have h1 : kwMatch ("true".toList) ('$' :: s) = none := rfl
  have h2 : kwMatch ("false".toList) ('$' :: s) = none := rfl
  have h3 : kwMatch ("null".toList) ('$' :: s) = none := rfl
  rw [h1, h2, h3]

theorem jsonG_dollar (s : List Char) :
    jsonG ('$' :: s) = .error (.Error (.Parser ('$' :: s))) := by
  unfold jsonG
  rw [show ('$' :: s).length + 1 = s.length + 1 + 1 from by simp, jsonV_dollar]

theorem parse_impl_invalid_query {O : Type} (g : IResult O) (input r : List Char)
    (hne : trim input ≠ []) (hg : g input = .error (.Error (.Parser r))) :
    ∃ l ch, parse_impl input g = some (.error (.InvalidQuery l ch (r.take 100))) := by
  cases htrim : trim input with
  | nil => exact absurd htrim hne
  | cons c cs =>
    obtain ⟨l, ch, hl⟩ := locate_isSome input r
    exact ⟨l, ch, by simp [parse_impl, htrim, hg, hl]⟩

/-- Every success of the inert/JSON grammar yields an inert value: no
parameter reference and no function call can appear anywhere inside it. -/
theorem parseJsonV_inert :
    ∀ fuel : Nat,
      (∀ (s r : List Char) (v : Value),
        parseJsonV fuel s = some (r, v) → inert v = true) ∧
      (∀ (s r : List Char) (vs : List Value),
        parseJsonListV fuel s = some (r, vs) → inertL vs = true) := by
  intro fuel
  induction fuel with
  | zero =>
    constructor
    · intro s r v h
      simp [parseJsonV] at h
    · intro s r vs h
      simp [parseJsonListV] at h
  | succ fuel ih =>
    constructor
    · intro s r v h
      cases s with
      | nil => simp [parseJsonV] at h
      | cons c rest =>
        simp only [parseJsonV] at h
        by_cases h1 : c = quoteChar
        · rw [if_pos h1] at h
          split at h
          · rename_i q r2 heq
            by_cases hq : q = quoteChar
            · rw [if_pos hq] at h
              simp at h
              obtain ⟨_, hv⟩ := h
              subst hv
              rfl
            · rw [if_neg hq] at h
              simp at h
          · simp at h
        · rw [if_neg h1] at h
          by_cases h2 : isDigitC c = true
          · rw [if_pos h2] at h
            simp at h
            obtain ⟨_, hv⟩ := h
            subst hv
            rfl
          · rw [if_neg h2] at h
            by_cases h3 : c = '['
            · rw [if_pos h3] at h
              cases hpl : parseJsonListV fuel (skipWs rest) with
              | none =>
                rw [hpl] at h
                simp at h
              | some pr =>
                obtain ⟨r2, vs⟩ := pr
                rw [hpl] at h
                simp at h
                obtain ⟨_, hv⟩ := h
                subst hv
                exact ih.2 (skipWs rest) r2 vs hpl
            · rw [if_neg h3] at h
              cases hk1 : kwMatch ("true".toList) (c :: rest) with
              | some r1 =>
                rw [hk1] at h
                simp at h
                obtain ⟨_, hv⟩ := h
                subst hv
                rfl
              | none =>
                rw [hk1] at h
                cases hk2 : kwMatch ("false".toList) (c :: rest) with
                | some r1 =>
                  rw [hk2] at h
                  simp at h
                  obtain ⟨_, hv⟩ := h
                  subst hv
                  rfl
                | none =>
                  rw [hk2] at h
                  cases hk3 : kwMatch ("null".toList) (c :: rest) with
                  | some r1 =>
                    rw [hk3] at h
                    simp at h
                    obtain ⟨_, hv⟩ := h
                    subst hv
                    rfl
                  | none =>
                    rw [hk3] at h
                    simp at h
    · intro s r vs h
      cases s with
      | nil => simp [parseJsonListV] at h
      | cons c rest =>
        simp only [parseJsonListV] at h
        by_cases hcl : c = ']'
        · rw [if_pos hcl] at h
          simp at h
          obtain ⟨_, hv⟩ := h
          subst hv
          rfl
        · rw [if_neg hcl] at h
          split at h
          · simp at h
          · rename_i r0 v0 heq0
            have hin0 : inert v0 = true := ih.1 (c :: rest) r0 v0 heq0
            split at h
            · rename_i r2 heq2
              cases hpl : parseJsonListV fuel (skipWs r2) with
              | none =>
                rw [hpl] at h
                simp at h
              | some pr1 =>
                obtain ⟨r4, vs'⟩ := pr1
                rw [hpl] at h
                simp at h
                obtain ⟨_, hv⟩ := h
                subst hv
                have hin' : inertL vs' = true := ih.2 (skipWs r2) r4 vs' hpl
                simp [inertL, hin0, hin']
            · split at h
              · simp at h
                obtain ⟨_, hv⟩ := h
                subst hv
                simp [inertL, hin0]
              · simp at h
            · simp at h

theorem parse_impl_ok {O : Type} (g : IResult O) (input : List Char) (v : O)
    (h : parse_impl input g = some (.ok v)) : g input = .ok ([], v) := by
  unfold parse_impl at h
  cases hlen : (trim input).length with
  | zero =>
    rw [hlen] at h
    simp at h
  | succ n =>
    rw [hlen] at h
    split at h
    · simp at h
    · split at h
      · rename_i rem parsed heq
        split at h
        · rename_i hr
          simp at h
          have hrem : rem = [] := by
            cases rem with
            | nil => rfl
            | cons a as => simp at hr
          rw [heq, hrem, h]
        · simp at h
      · rename_i e heq
        cases e <;> simp [Option.map_eq_some'] at h
      · rename_i e heq
        cases e <;> simp [Option.map_eq_some'] at h
      · simp at h

theorem jsonG_ok (s r : List Char) (v : Value)
    (h : jsonG s = .ok (r, v)) : parseJsonV (s.length + 1) s = some (r, v) := by
  unfold jsonG at h
  cases hp : parseJsonV (s.length + 1) s with
  | none =>
    rw [hp] at h
    simp at h
  | some pr =>
    obtain ⟨r0, v0⟩ := pr
    rw [hp] at h
    simp at h
    rw [h.1, h.2]

/-- Whatever the input, a value accepted by the json entry point is inert:
it contains no parameter reference and no function call anywhere. -/
theorem json_inert (input : List Char) (v : Value)
    (h : json jsonG input = some (.ok v)) : inert v = true := by
  have h1 : jsonG (trim input) = .ok ([], v) := parse_impl_ok jsonG (trim input) v h
  have h2 := jsonG_ok (trim input) [] v h1
  exact (parseJsonV_inert ((trim input).length + 1)).1 (trim input) [] v h2

/-- C8: the json entry point never accepts a parameter reference or
function-call syntax, at any depth: every value it accepts is inert
(contains no param or call node anywhere), while parameter and call values
are not inert; an input that is a parameter reference fails under json and
is accepted by value as a parameter; function-call syntax, plain or with
arguments, and parameters or calls embedded in arrays, fail under json even
though value accepts them. -/
theorem claim_C8_inert_rejects (nm : List Char) (hne : nm ≠ [])
    (halpha : nm.all isAlphaC = true) :
    (∀ (input : List Char) (v : Value), json jsonG input = some (.ok v) → inert v = true) ∧
    (∀ pn : List Char, inert (.param pn) = false) ∧
    (∀ (cn : List Char) (args : List Value), inert (.call cn args) = false) ∧
    (∃ l ch snip, json jsonG ('$' :: nm) = some (.error (.InvalidQuery l ch snip))) ∧
    value valueG ('$' :: nm) = some (.ok (.param nm)) ∧
    json jsonG ['f', '(', ')'] = some (.error (.InvalidQuery 1 0 ['f', '(', ')'])) ∧
    value valueG ['f', '(', ')'] = some (.ok (.call ['f'] [])) ∧
    json jsonG ("g(1)".toList) = some (.error (.InvalidQuery 1 0 ("g(1)".toList))) ∧
    value valueG ("g(1)".toList) = some (.ok (.call ['g'] [.num 1])) ∧
    json jsonG ("[$x]".toList) = some (.error (.InvalidQuery 1 0 ("[$x]".toList))) ∧
    value valueG ("[$x]".toList) = some (.ok (.arr [.param ['x']])) ∧
    json jsonG ("[f()]".toList) = some (.error (.InvalidQuery 1 0 ("[f()]".toList))) := by
  have htr : trim ('$' :: nm) = '$' :: nm := trim_no_ws _ (dollar_nonws nm halpha)
  have hne2 : trim ('$' :: nm) ≠ [] := by rw [htr]; simp
  refine ⟨json_inert, fun pn => rfl, fun cn args => rfl, ?_, ?_,
    by rfl, by rfl, by rfl, by rfl, by rfl, by rfl, by rfl⟩
  · have hj : json jsonG ('$' :: nm) = parse_impl ('$' :: nm) jsonG := by
      unfold json
      rw [htr]
    rw [hj]
    obtain ⟨l, ch, hres⟩ := parse_impl_invalid_query jsonG ('$' :: nm) ('$' :: nm) hne2
      (jsonG_dollar nm)
    exact ⟨l, ch, ('$' :: nm).take 100, hres⟩
  · have hok := valueG_param nm hne halpha
    show parse_impl ('$' :: nm) valueG = _
    simp [parse_impl, htr, hok]

/-- Witness for C8: the parameter reference with name x. -/
theorem claim_C8_witness :
    (∀ (input : List Char) (v : Value), json jsonG input = some (.ok v) → inert v = true) ∧
    (∀ pn : List Char, inert (.param pn) = false) ∧
    (∀ (cn : List Char) (args : List Value), inert (.call cn args) = false) ∧
    (∃ l ch snip, json jsonG ('$' :: ['x']) = some (.error (.InvalidQuery l ch snip))) ∧
    value valueG ('$' :: ['x']) = some (.ok (.param ['x'])) ∧
    json jsonG ['f', '(', ')'] = some (.error (.InvalidQuery 1 0 ['f', '(', ')'])) ∧
    value valueG ['f', '(', ')'] = some (.ok (.call ['f'] [])) ∧
    json jsonG ("g(1)".toList) = some (.error (.InvalidQuery 1 0 ("g(1)".toList))) ∧
    value valueG ("g(1)".toList) = some (.ok (.call ['g'] [.num 1])) ∧
    json jsonG ("[$x]".toList) = some (.error (.InvalidQuery 1 0 ("[$x]".toList))) ∧
    value valueG ("[$x]".toList) = some (.ok (.arr [.param ['x']])) ∧
    json jsonG ("[f()]".toList) = some (.error (.InvalidQuery 1 0 ("[f()]".toList))) :=
  claim_C8_inert_rejects ['x'] (by decide) (by decide)

end SQL
